import Mathlib

/-
Verification of the template-resolution engine of the elss static-site
builder (src/builder.rs).  The Rust code is shallowly embedded: strings
are lists of characters, the three fixed regular expressions
(component reference, layout reference, layout placeholder) are
implemented as deterministic matchers specialised to those patterns,
the mutable resolution cache is an association list threaded through
the computation, and the recursive resolver `replace_components`
together with its capture loop is a single fuel-indexed function `run`
(the fuel only bounds the recursion depth; sufficiency is proved).
Filesystem reads are modelled by a finite map from path strings to
contents; `eprintln!` diagnostics are modelled as an output list.
-/

namespace Elss

/-- Characters of a string literal; all modelling is over explicit character lists. -/
def str (s : String) : List Char := s.data

/-- The string type of the model: a list of characters. -/
abbrev L := List Char

/-- Whitespace test mirroring the regex class \s on the ASCII range. -/
def isWs (c : Char) : Bool :=
  c == ' ' || c == '\t' || c == '\n' || c == '\r' || c == '\x0b' || c == '\x0c'

/-- Does the second list start with the first? -/
def lstartsWith : L → L → Bool
  | [], _ => true
  | _ :: _, [] => false
  | p :: ps, c :: cs => p == c && lstartsWith ps cs

/-- One match of a component or layout reference regex
`<TAG\s+name="([^"]*)"\s*>(.*?)</TAG>`: the whole matched span
(capture 0), the name attribute (capture 1) and the inner text
(capture 2). -/
structure Cap where
  matched : L
  name : L
  inner : L
  deriving DecidableEq, Repr

/-- Scan for the lazy `(.*?)</TAG>` part: find the earliest closing tag,
collecting the inner span, which may not contain a newline (the regex
dot does not match a newline). -/
def scanInner (close : L) : L → Option (L × L)
  | [] => none
  | c :: rest =>
    if lstartsWith close (c :: rest) then some ([], List.drop close.length (c :: rest))
    else if c == '\n' then none
    else match scanInner close rest with
      | some (i, r) => some (c :: i, r)
      | none => none

/-- The closing marker `</TAG>` for a tag name. -/
def closeTok (tag : L) : L := '<' :: '/' :: (tag ++ ['>'])

/-- Attempt to match `<TAG\s+name="([^"]*)"\s*>(.*?)</TAG>` at the head of
`s`.  Each regex piece is deterministic here: the greedy `\s+`, `[^"]*`
and `\s*` are each followed by a literal that their class excludes, so
maximal munch is the only possible parse.  Returns the captures and the
remainder of the input after the match. -/
def tryTagAt (tag : L) (s : L) : Option (Cap × L) :=
  if lstartsWith ('<' :: tag) s then
    let s1 := List.drop ('<' :: tag).length s
    match s1 with
    | [] => none
    | c1 :: _ =>
      if isWs c1 then
        let s2 := s1.dropWhile isWs
        if lstartsWith (str "name=\"") s2 then
          let s3 := List.drop 6 s2
          let nm := s3.takeWhile (fun c => !(c == '\"'))
          let s4 := List.drop nm.length s3
          match s4 with
          | '\"' :: s5 =>
            let s6 := s5.dropWhile isWs
            match s6 with
            | '>' :: s7 =>
              match scanInner (closeTok tag) s7 with
              | some (inner, rest) =>
                some (⟨List.take (s.length - rest.length) s, nm, inner⟩, rest)
              | none => none
            | _ => none
          | _ => none
        else none
      else none
  else none

/-- All non-overlapping matches of the tag regex, leftmost first
(`Regex::captures_iter`).  The fuel is the length of the input; every
step consumes at least one character, so this fuel is always enough. -/
def scanTagsF (tag : L) : Nat → L → List Cap
  | 0, _ => []
  | _ + 1, [] => []
  | f + 1, c :: rest =>
    match tryTagAt tag (c :: rest) with
    | some (cap, r) => cap :: scanTagsF tag f r
    | none => scanTagsF tag f rest

/-- All matches of the tag regex in a string, leftmost first. -/
def scanTags (tag : L) (s : L) : List Cap := scanTagsF tag s.length s

/-- First match of the tag regex (`Regex::captures`). -/
def findTagF (tag : L) : Nat → L → Option Cap
  | 0, _ => none
  | _ + 1, [] => none
  | f + 1, c :: rest =>
    match tryTagAt tag (c :: rest) with
    | some (cap, _) => some cap
    | none => findTagF tag f rest

/-- First match of the tag regex in a string, if any. -/
def findFirstTag (tag : L) (s : L) : Option Cap := findTagF tag s.length s

/-- Rust `str::replace`: replace every non-overlapping occurrence of
`pat` in the text, scanning left to right; the replacement is not
rescanned. -/
def replaceAllF (pat rep : L) : Nat → L → L
  | 0, s => s
  | _ + 1, [] => []
  | f + 1, c :: rest =>
    if lstartsWith pat (c :: rest) then rep ++ replaceAllF pat rep f (List.drop pat.length (c :: rest))
    else c :: replaceAllF pat rep f rest

/-- Rust `str::replace` of all occurrences of `pat` by `rep`. -/
def replaceAllL (s pat rep : L) : L := replaceAllF pat rep s.length s

/-- Attempt to match the layout placeholder regex `<el-content\s*/>` at
the head of `s`; returns the matched span and the remainder. -/
def tryContentAt (s : L) : Option (L × L) :=
  if lstartsWith (str "<el-content") s then
    let s1 := List.drop 11 s
    let s2 := s1.dropWhile isWs
    if lstartsWith (str "/>") s2 then
      some (List.take (s.length - (List.drop 2 s2).length) s, List.drop 2 s2)
    else none
  else none

/-- A character allowed in an unbraced capture-group name of a regex
replacement string: `[0-9A-Za-z_]`. -/
def isCapChar (c : Char) : Bool := c.isDigit || c.isAlpha || c == '_'

/-- Decimal value of a digit string. -/
def natOfDigits (l : L) : Nat := l.foldl (fun acc c => acc * 10 + (c.toNat - 48)) 0

/-- Value of a capture-group reference in a replacement string, for a
regex with no capture groups: group 0 is the whole match `m`, every
other index and every name is absent and yields the empty string. -/
def groupVal (m : L) (nm : L) : L :=
  if nm.all (fun c => c.isDigit) then (if natOfDigits nm == 0 then m else []) else []

/-- Expansion of a regex replacement string (the `Replacer` instance for
`&str` used by `Regex::replace_all`): `$$` is a literal dollar, `$name`
and `$\x7bname\x7d` are capture-group references (longest name wins, a
missing group expands to the empty string), and a dollar not followed
by a valid reference is literal.  `m` is the whole match. -/
def expandReplF (m : L) : Nat → L → L
  | 0, s => s
  | _ + 1, [] => []
  | f + 1, c :: rest =>
    if c == '$' then
      match rest with
      | '$' :: r2 => '$' :: expandReplF m f r2
      | '\x7b' :: r2 =>
        let nm := r2.takeWhile (fun c => !(c == '\x7d'))
        let r3 := List.drop nm.length r2
        (match r3 with
         | '\x7d' :: r4 =>
           if nm.isEmpty then '$' :: expandReplF m f rest
           else groupVal m nm ++ expandReplF m f r4
         | _ => '$' :: expandReplF m f rest)
      | _ =>
        let nm := rest.takeWhile isCapChar
        if nm.isEmpty then '$' :: expandReplF m f rest
        else groupVal m nm ++ expandReplF m f (List.drop nm.length rest)
    else c :: expandReplF m f rest

/-- Expansion of the replacement string `body` for a match `m`. -/
def expandRepl (m body : L) : L := expandReplF m body.length body

/-- `Regex::replace_all` for the layout placeholder regex, with the page
body as replacement string: every placeholder occurrence is replaced by
the expanded body.  The fuel is the length of the input. -/
def substAllF (body : L) : Nat → L → L
  | 0, s => s
  | _ + 1, [] => []
  | f + 1, c :: rest =>
    match tryContentAt (c :: rest) with
    | some (m, r) => expandRepl m body ++ substAllF body f r
    | none => c :: substAllF body f rest

/-- Replace every layout-placeholder occurrence in `s` by the expanded
replacement string `body`. -/
def substAll (body s : L) : L := substAllF body s.length s

/-- Does the list end with the suffix? -/
def lendsWith (suf s : L) : Bool := lstartsWith suf.reverse s.reverse

/-- Rust `str::trim_end_matches`: repeatedly remove the suffix. -/
def trimEndF (suf : L) : Nat → L → L
  | 0, s => s
  | f + 1, s =>
    if 0 < suf.length && lendsWith suf s then trimEndF suf f (List.take (s.length - suf.length) s)
    else s

/-- Remove every trailing repetition of `suf`. -/
def trimEndAll (suf s : L) : L := trimEndF suf s.length s

/-- The directory configuration of a `SiteBuilder` (its `dest_dir`,
`src_dir`, `components_dir` and `layout_dir` fields). -/
structure Config where
  srcDir : L
  destDir : L
  componentsDir : L
  layoutDir : L

/-- The configuration produced by `SiteBuilder::new` (paths relative to
the base directory). -/
def defaultCfg : Config :=
  ⟨str "src", str "build", str "el-components", str "el-layouts"⟩

/-- `src_dir.join(path)`. -/
def srcJoin (cfg : Config) (p : L) : L := cfg.srcDir ++ '/' :: p

/-- `dest_dir.join(path)`. -/
def destJoin (cfg : Config) (p : L) : L := cfg.destDir ++ '/' :: p

/-- The component path computed for a reference name:
`components_dir/NAME.html` where trailing `.html` repetitions of the
name are first trimmed (line 121 of builder.rs). -/
def componentPathOf (cfg : Config) (nm : L) : L :=
  cfg.componentsDir ++ '/' :: (trimEndAll (str ".html") nm ++ str ".html")

/-- The layout path computed for a layout name (line 144 of builder.rs). -/
def layoutPathOf (cfg : Config) (nm : L) : L :=
  cfg.layoutDir ++ '/' :: (trimEndAll (str ".html") nm ++ str ".html")

/-- A diagnostic written to stderr by the builder. -/
inductive Diag where
  | readFail (srcPath : L)
  | cycle (componentPath : L)
  | removeFail
  | copyFail (srcPath : L)
  deriving DecidableEq, Repr

/-- The resolution cache (`cache: HashMap<PathBuf, String>`) and the
filesystem are association lists from path strings to contents. -/
abbrev Cache := List (L × L)

/-- The filesystem of a build: a finite map from full source paths to
file contents; a missing key is a failing read. -/
abbrev FS := List (L × L)

/-- Association-list lookup (newest binding first). -/
def lookupA : Cache → L → Option L
  | [], _ => none
  | (k, v) :: rest, q => if k = q then some v else lookupA rest q

/-- Association-list insert (`HashMap::insert`). -/
def insertA (c : Cache) (k v : L) : Cache := (k, v) :: c

/-- The tag name of the component reference regex. -/
def componentTag : L := str "el-component"

/-- The tag name of the layout reference regex. -/
def layoutTag : L := str "el-layout"

/-- The result of a resolver computation: the cache afterwards, the
resulting text, the diagnostics reported (chronological) and the paths
whose raw content was successfully read (chronological). -/
structure RcOut where
  cache : Cache
  text : L
  diags : List Diag
  reads : List L
  deriving DecidableEq, Repr

/-- A pending resolver computation: `resolve` is a call
`replace_components(path, processing)` with the given cache, and `caps`
is the capture loop of such a call over the remaining captures, with
`acc` the partially substituted result string. -/
inductive Req where
  | resolve (cache : Cache) (proc : List L) (path : L)
  | caps (cache : Cache) (proc : List L) (cs : List Cap) (acc : L)
  deriving DecidableEq, Repr

/-- The resolver of builder.rs (`replace_components`, lines 101-138),
as a single fuel-indexed step function.  A `resolve` request returns
the cache entry for the destination path if present; otherwise it reads
the source file (a failing read reports a diagnostic and yields the
empty string without caching), runs the capture loop on the text, and
caches the result under the destination path.  A `caps` request
processes one capture: a referenced path already in `proc` reports a
cycle and leaves the occurrence unsubstituted; otherwise the reference
is resolved recursively with the path added to `proc` (and removed
afterwards: the continuation uses the original `proc`), and every
occurrence of the matched span in the accumulator is replaced by the
resolved content.  The fuel only bounds the recursion depth; `none`
means it ran out. -/
def run (cfg : Config) (fs : FS) : Nat → Req → Option RcOut
  | 0, _ => none
  | f + 1, .resolve cache proc path =>
    match lookupA cache (destJoin cfg path) with
    | some v => some ⟨cache, v, [], []⟩
    | none =>
      match lookupA fs (srcJoin cfg path) with
      | none => some ⟨cache, [], [Diag.readFail (srcJoin cfg path)], []⟩
      | some text =>
        match run cfg fs f (.caps cache proc (scanTags componentTag text) text) with
        | none => none
        | some o => some ⟨insertA o.cache (destJoin cfg path) o.text, o.text, o.diags, path :: o.reads⟩
  | _ + 1, .caps cache _ [] acc => some ⟨cache, acc, [], []⟩
  | f + 1, .caps cache proc (cap :: rest) acc =>
    let cp := componentPathOf cfg cap.name
    if cp ∈ proc then
      match run cfg fs f (.caps cache proc rest acc) with
      | none => none
      | some o => some ⟨o.cache, o.text, Diag.cycle cp :: o.diags, o.reads⟩
    else
      match run cfg fs f (.resolve cache (cp :: proc) cp) with
      | none => none
      | some o1 =>
        match run cfg fs f (.caps o1.cache proc rest (replaceAllL acc cap.matched o1.text)) with
        | none => none
        | some o2 => some ⟨o2.cache, o2.text, o1.diags ++ o2.diags, o1.reads ++ o2.reads⟩

/-- Number of filesystem entries not yet shielded by the processing
set: an upper bound on how many recursive expansions can still start. -/
def freshCount (cfg : Config) (fs : FS) (proc : List L) : Nat :=
  (fs.filter (fun kv => proc.all (fun p => !(kv.1 == srcJoin cfg p)))).length

/-- The largest number of component captures in any file of the
filesystem. -/
def capMax (fs : FS) : Nat :=
  fs.foldr (fun kv acc => max (scanTags componentTag kv.2).length acc) 0

/-- Fuel sufficient for a `resolve` request with the given processing
set (proved below). -/
def needFuel (cfg : Config) (fs : FS) (proc : List L) : Nat :=
  (freshCount cfg fs proc + 1) * (capMax fs + 2) + 1

/-- Fuel sufficient for any `resolve` request over this filesystem. -/
def defaultFuel (fs : FS) : Nat := (fs.length + 1) * (capMax fs + 2) + 1

/-- Default output when the resolver runs out of fuel (never happens at
`defaultFuel`, by `run_isSome`). -/
def emptyOut (cache : Cache) : RcOut := ⟨cache, [], [], []⟩

/-- `replace_components` called on a path with a fresh processing set,
as from `flatten_file` or `replace_layout`. -/
def replaceComponents (cfg : Config) (fs : FS) (cache : Cache) (path : L) : RcOut :=
  (run cfg fs (defaultFuel fs) (.resolve cache [] path)).getD (emptyOut cache)

/-- `replace_layout` (lines 140-152): find the first layout reference in
the component-resolved page content; if none, the content is returned
unchanged; otherwise resolve the named layout file through the
component resolver with a fresh processing set and replace every layout
placeholder in the resolved layout by the captured page body (a regex
replacement string, so it is `$`-expanded). -/
def replaceLayout (cfg : Config) (fs : FS) (cache : Cache) (content : L) : RcOut :=
  match findFirstTag layoutTag content with
  | none => ⟨cache, content, [], []⟩
  | some cap =>
    let o := (run cfg fs (defaultFuel fs) (.resolve cache [] (layoutPathOf cfg cap.name))).getD (emptyOut cache)
    ⟨o.cache, substAll cap.inner o.text, o.diags, o.reads⟩

/-- `flatten_file` (lines 34-48) without the external write: component
resolution with a fresh processing set, then layout application. -/
def flattenFile (cfg : Config) (fs : FS) (cache : Cache) (path : L) : RcOut :=
  let o1 := replaceComponents cfg fs cache path
  let o2 := replaceLayout cfg fs o1.cache o1.text
  ⟨o2.cache, o2.text, o1.diags ++ o2.diags, o1.reads ++ o2.reads⟩

/-- A file surfaced by the external directory walker: an `.html` page
(processed through `flatten_file`) or any other file (copied). -/
inductive Entry where
  | page (p : L)
  | asset (p : L)
  deriving DecidableEq, Repr

/-- `process_file` folded over the walked files: pages are flattened and
written to their destination paths, other files are copied
byte-for-byte (a failing copy reports a diagnostic).  Returns the final
cache, the written outputs and the diagnostics. -/
def processEntries (cfg : Config) (fs : FS) : Cache → List Entry → Cache × List (L × L) × List Diag
  | cache, [] => (cache, [], [])
  | cache, .page p :: rest =>
    let o := flattenFile cfg fs cache p
    let r := processEntries cfg fs o.cache rest
    (r.1, (destJoin cfg p, o.text) :: r.2.1, o.diags ++ r.2.2)
  | cache, .asset p :: rest =>
    match lookupA fs (srcJoin cfg p) with
    | some b =>
      let r := processEntries cfg fs cache rest
      (r.1, (destJoin cfg p, b) :: r.2.1, r.2.2)
    | none =>
      let r := processEntries cfg fs cache rest
      (r.1, r.2.1, Diag.copyFail (srcJoin cfg p) :: r.2.2)

/-- `build` (lines 50-56) with the walker abstracted to its resulting
entry list: try to remove the output directory — on failure only a
diagnostic is reported (`removeOk = false`) — then process every walked
file.  Returns the written outputs and the diagnostics. -/
def build (cfg : Config) (fs : FS) (removeOk : Bool) (entries : List Entry) :
    List (L × L) × List Diag :=
  let r := processEntries cfg fs [] entries
  (r.2.1, (if removeOk then [] else [Diag.removeFail]) ++ r.2.2)

/-- Modelled from the spec: section 4.3 of the spec says that within the
resolved layout text only the FIRST layout-placeholder occurrence is
replaced by the page's captured body (verbatim).  This follows the
spec's wording, for comparison with the code's `substAll`. -/
def substFirstF (body : L) : Nat → L → L
  | 0, s => s
  | _ + 1, [] => []
  | f + 1, c :: rest =>
    match tryContentAt (c :: rest) with
    | some (_, r) => body ++ r
    | none => c :: substFirstF body f rest

/-- Modelled from the spec: replace only the first layout-placeholder
occurrence by the body, verbatim. -/
def substFirst (body s : L) : L := substFirstF body s.length s

/-- A path under the components directory: the only paths the capture
loop ever resolves recursively. -/
def isCompPath (cfg : Config) (p : L) : Prop :=
  lstartsWith (cfg.componentsDir ++ ['/']) p = true

/-- Soundness of one resolver computation's read trace, relative to the
cache it started from: the successfully read paths are pairwise
distinct, each was uncached at the start and is cached at the end, the
cache only grows, and every read path is a not-yet-guarded component
path or the request's own path (`seed`). -/
def readsOk (cfg : Config) (cache : Cache) (proc : List L) (seed : Option L) (o : RcOut) : Prop :=
  o.reads.Nodup
  ∧ (∀ p ∈ o.reads, lookupA cache (destJoin cfg p) = none ∧ (lookupA o.cache (destJoin cfg p)).isSome = true)
  ∧ (∀ k, (lookupA cache k).isSome = true → (lookupA o.cache k).isSome = true)
  ∧ (∀ p ∈ o.reads, (isCompPath cfg p ∧ p ∉ proc) ∨ seed = some p)

/-- The filesystem of the spec's concrete scenario for C1, exactly as
the claim states it: the component file lives at
`components/greeting.html` and the page references it with a `src`
attribute. -/
def fsC1 : FS :=
  [(str "src/index.html", str "<el-component src=\"greeting\"></el-component>"),
   (str "src/components/greeting.html", str "Hello, World!")]

/-- The C1 scenario as the code actually supports it: a `name` attribute
and the component under the `el-components` directory. -/
def fsC1amended : FS :=
  [(str "src/index.html", str "<el-component name=\"greeting\"></el-component>"),
   (str "src/el-components/greeting.html", str "Hello, World!")]

/-- An acyclic filesystem on which textual splicing creates a literal
component-reference tag in the output: the page has a stray closing tag
after its reference, and component `a` consists of an unclosed opening
tag (so `a` itself references nothing). -/
def fsC2 : FS :=
  [(str "src/index.html", str "<el-component name=\"a\">x</el-component></el-component>"),
   (str "src/el-components/a.html", str "<el-component name=\"b\">")]

/-- A diamond-inclusion filesystem: the page references `c1` and `c2`,
both of which reference the shared component `s`. -/
def fsC7 : FS :=
  [(str "src/index.html", str "<el-component name=\"c1\"></el-component><el-component name=\"c2\"></el-component>"),
   (str "src/el-components/c1.html", str "[<el-component name=\"s\"></el-component>]"),
   (str "src/el-components/c2.html", str "(<el-component name=\"s\"></el-component>)"),
   (str "src/el-components/s.html", str "S")]

/-- A filesystem with a self-referential component `a` and two pages
referencing it: resolving page `p1` caches `a`'s tag-containing text,
which page `p2` then receives from the cache. -/
def fsC9 : FS :=
  [(str "src/p1.html", str "<el-component name=\"a\">f</el-component>"),
   (str "src/p2.html", str "A<el-component name=\"a\">f</el-component>B"),
   (str "src/el-components/a.html", str "X<el-component name=\"a\">f</el-component>Y")]

/-- A one-layout filesystem used for the C4 counterexample. -/
def fsC4 : FS := [(str "src/el-layouts/base.html", str "<h1>T</h1><el-content/>")]

/-- A layout with two placeholders, used for the C5 counterexample. -/
def fsC5 : FS := [(str "src/el-layouts/two.html", str "A<el-content/>B<el-content/>C")]

/-- The spec's own layout scenario: `layouts/base.html` with one
placeholder. -/
def fsBase : FS := [(str "src/el-layouts/base.html", str "<h1>Site</h1><el-content/>")]

/-- The layout-placeholder tag, as a string constant. -/
def phTag : L := str "<el-content/>"

/-- A one-layout filesystem used for the C10 pipeline conjunct. -/
def fsC10 : FS := [(str "src/el-layouts/b.html", str "<p><el-content/></p>")]


theorem lookupA_insertA_self (c : Cache) (k v : L) : lookupA (insertA c k v) k = some v := by
  simp [insertA, lookupA]

theorem isSome_lookupA_insertA (c : Cache) (k v q : L)
    (h : (lookupA c q).isSome = true) : (lookupA (insertA c k v) q).isSome = true := by
  by_cases hk : k = q <;> simp [insertA, lookupA, hk, h]

theorem lookupA_some_mem {l : List (L × L)} {q v : L} (h : lookupA l q = some v) : (q, v) ∈ l := by
  induction l with
  | nil => simp [lookupA] at h
  | cons kv rest ih =>
    match kv with
    | (k, w) =>
      by_cases hk : k = q
      · subst hk
        simp [lookupA] at h
        simp [h]
      · simp [lookupA, hk] at h
        exact List.mem_cons_of_mem _ (ih h)

theorem lstartsWith_append (p t : L) : lstartsWith p (p ++ t) = true := by
  induction p with
  | nil => simp [lstartsWith]
  | cons c cs ih => simp [lstartsWith, ih]

theorem isCompPath_componentPathOf (cfg : Config) (nm : L) :
    isCompPath cfg (componentPathOf cfg nm) := by
  show lstartsWith (cfg.componentsDir ++ ['/']) (componentPathOf cfg nm) = true
  have h : componentPathOf cfg nm
      = (cfg.componentsDir ++ ['/']) ++ (trimEndAll (str ".html") nm ++ str ".html") := by
    simp [componentPathOf]
  rw [h, lstartsWith_append]

theorem srcJoin_inj (cfg : Config) {a b : L} (h : srcJoin cfg a = srcJoin cfg b) : a = b := by
  simp only [srcJoin] at h
  have := List.append_cancel_left h
  simpa using this

theorem length_filter_mono {α} (l : List α) (p q : α → Bool)
    (h : ∀ x, q x = true → p x = true) : (l.filter q).length ≤ (l.filter p).length := by
  induction l with
  | nil => simp
  | cons a l' ih =>
    by_cases hq : q a = true
    · rw [List.filter_cons_of_pos hq, List.filter_cons_of_pos (h a hq)]
      simpa using ih
    · rw [List.filter_cons_of_neg hq]
      by_cases hp : p a = true
      · rw [List.filter_cons_of_pos hp]
        exact Nat.le_trans ih (by simp)
      · rw [List.filter_cons_of_neg hp]
        exact ih

theorem length_filter_strict {α} (l : List α) (p q : α → Bool)
    (h : ∀ x, q x = true → p x = true) (x : α) (hx : x ∈ l)
    (hpx : p x = true) (hqx : q x = false) :
    (l.filter q).length < (l.filter p).length := by
  induction l with
  | nil => simp at hx
  | cons a l' ih =>
    rcases List.mem_cons.mp hx with h1 | hx'
    · subst h1
      rw [List.filter_cons_of_neg (by simp [hqx]), List.filter_cons_of_pos hpx]
      exact Nat.lt_succ_of_le (length_filter_mono l' p q h)
    · by_cases hq : q a = true
      · rw [List.filter_cons_of_pos hq, List.filter_cons_of_pos (h a hq)]
        simpa using ih hx'
      · rw [List.filter_cons_of_neg hq]
        by_cases hp : p a = true
        · rw [List.filter_cons_of_pos hp]
          exact Nat.lt_succ_of_lt (ih hx')
        · rw [List.filter_cons_of_neg hp]
          exact ih hx'

theorem freshCount_cons_le (cfg : Config) (fs : FS) (cp : L) (proc : List L) :
    freshCount cfg fs (cp :: proc) ≤ freshCount cfg fs proc := by
  apply length_filter_mono
  intro kv hq
  simp only [List.all_cons, Bool.and_eq_true] at hq
  exact hq.2

theorem freshCount_lt (cfg : Config) (fs : FS) (cp : L) (proc : List L) (t : L)
    (h1 : lookupA fs (srcJoin cfg cp) = some t) (h2 : cp ∉ proc) :
    freshCount cfg fs (cp :: proc) < freshCount cfg fs proc := by
  apply length_filter_strict
    (x := (srcJoin cfg cp, t))
  · intro kv hq
    simp only [List.all_cons, Bool.and_eq_true] at hq
    exact hq.2
  · exact lookupA_some_mem h1
  · rw [List.all_eq_true]
    intro p hp
    simp only [Bool.not_eq_true']
    rw [beq_eq_false_iff_ne]
    intro heq
    exact h2 (by rw [srcJoin_inj cfg heq]; exact hp)
  · simp [List.all_cons]

theorem scanTags_le_capMax (fs : FS) (k t : L) (h : lookupA fs k = some t) :
    (scanTags componentTag t).length ≤ capMax fs := by
  induction fs with
  | nil => simp [lookupA] at h
  | cons kv rest ih =>
    match kv with
    | (k', v') =>
      by_cases hk : k' = k
      · subst hk
        simp [lookupA] at h
        subst h
        simp [capMax]
      · simp [lookupA, hk] at h
        have := ih h
        simp only [capMax, List.foldr_cons] at *
        omega


theorem run_resolve_cheap (cfg : Config) (fs : FS) (f : Nat) (cache : Cache) (proc : List L) (path : L)
    (h : lookupA fs (srcJoin cfg path) = none) :
    (run cfg fs (f + 1) (.resolve cache proc path)).isSome = true := by
  simp only [run]
  cases h1 : lookupA cache (destJoin cfg path) with
  | some v => simp
  | none => simp [h]

theorem run_term (cfg : Config) (fs : FS) : ∀ fuel : Nat,
    (∀ cache proc path, needFuel cfg fs proc ≤ fuel →
      (run cfg fs fuel (.resolve cache proc path)).isSome = true)
    ∧ (∀ cache proc cs acc, cs.length ≤ capMax fs →
      cs.length + 2 + freshCount cfg fs proc * (capMax fs + 2) ≤ fuel →
      (run cfg fs fuel (.caps cache proc cs acc)).isSome = true) := by
  intro fuel
  induction fuel with
  | zero =>
    constructor
    · intro cache proc path hle
      simp only [needFuel] at hle
      omega
    · intro cache proc cs acc _ hle
      omega
  | succ f ih =>
    constructor
    · intro cache proc path hle
      simp only [run]
      cases h1 : lookupA cache (destJoin cfg path) with
      | some v => simp
      | none =>
        cases h2 : lookupA fs (srcJoin cfg path) with
        | none => simp
        | some text =>
          have hcs : (scanTags componentTag text).length ≤ capMax fs :=
            scanTags_le_capMax fs _ _ h2
          have hdist : (freshCount cfg fs proc + 1) * (capMax fs + 2)
              = freshCount cfg fs proc * (capMax fs + 2) + (capMax fs + 2) :=
            Nat.succ_mul _ _
          have hbound : (scanTags componentTag text).length + 2
              + freshCount cfg fs proc * (capMax fs + 2) ≤ f := by
            simp only [needFuel] at hle
            omega
          have hsome := ih.2 cache proc (scanTags componentTag text) text hcs hbound
          rcases Option.isSome_iff_exists.mp hsome with ⟨o, ho⟩
          simp [ho]
    · intro cache proc cs acc hcs hle
      cases cs with
      | nil => simp [run]
      | cons cap rest =>
        simp only [List.length_cons] at hcs hle
        simp only [run]
        by_cases hin : componentPathOf cfg cap.name ∈ proc
        · rw [if_pos hin]
          have hsome := ih.2 cache proc rest acc (by omega) (by omega)
          rcases Option.isSome_iff_exists.mp hsome with ⟨o, ho⟩
          simp [ho]
        · rw [if_neg hin]
          have hchild : (run cfg fs f
              (.resolve cache (componentPathOf cfg cap.name :: proc) (componentPathOf cfg cap.name))).isSome = true := by
            cases h2 : lookupA fs (srcJoin cfg (componentPathOf cfg cap.name)) with
            | none =>
              obtain ⟨g, rfl⟩ : ∃ g, f = g + 1 := ⟨f - 1, by omega⟩
              exact run_resolve_cheap cfg fs g cache _ _ h2
            | some t =>
              apply ih.1
              have hlt := freshCount_lt cfg fs _ proc t h2 hin
              simp only [needFuel]
              have h3 : freshCount cfg fs (componentPathOf cfg cap.name :: proc) + 1
                  ≤ freshCount cfg fs proc := by omega
              have h4 := Nat.mul_le_mul_right (capMax fs + 2) h3
              omega
          rcases Option.isSome_iff_exists.mp hchild with ⟨o1, ho1⟩
          rw [ho1]
          have hrest := ih.2 o1.cache proc rest (replaceAllL acc cap.matched o1.text)
            (by omega) (by omega)
          rcases Option.isSome_iff_exists.mp hrest with ⟨o2, ho2⟩
          simp [ho2]


theorem run_readsOk : ∀ (fuel : Nat) (cfg : Config) (fs : FS) (req : Req) (o : RcOut),
    run cfg fs fuel req = some o →
    match req with
    | .resolve cache proc path =>
      (isCompPath cfg path → path ∈ proc) → readsOk cfg cache proc (some path) o
    | .caps cache proc _ _ => readsOk cfg cache proc none o := by
  intro fuel
  induction fuel with
  | zero => intro cfg fs req o h; simp [run] at h
  | succ f ih =>
    intro cfg fs req o h
    cases req with
    | resolve cache proc path =>
      intro hguard
      cases h1 : lookupA cache (destJoin cfg path) with
      | some v =>
        simp only [run, h1] at h
        rcases Option.some.inj h with rfl
        refine ⟨by simp, by simp, ?_, by simp⟩
        intro k hk
        exact hk
      | none =>
        cases h2 : lookupA fs (srcJoin cfg path) with
        | none =>
          simp only [run, h1, h2] at h
          rcases Option.some.inj h with rfl
          refine ⟨by simp, by simp, ?_, by simp⟩
          intro k hk
          exact hk
        | some text =>
          cases hg : run cfg fs f (.caps cache proc (scanTags componentTag text) text) with
          | none =>
            simp only [run, h1, h2, hg] at h
            exact Option.noConfusion h
          | some g =>
            simp only [run, h1, h2, hg] at h
            rcases Option.some.inj h with rfl
            have hrg := ih cfg fs _ g hg
            simp only at hrg
            obtain ⟨hnd, hfresh, hmono, hshape⟩ := hrg
            refine ⟨?_, ?_, ?_, ?_⟩
            · refine List.Nodup.cons ?_ hnd
              intro hmem
              rcases hshape path hmem with ⟨hc, hnp⟩ | h'
              · exact hnp (hguard hc)
              · cases h'
            · intro p hp
              rcases List.mem_cons.mp hp with rfl | hp'
              · refine ⟨h1, ?_⟩
                rw [lookupA_insertA_self]
                rfl
              · exact ⟨(hfresh p hp').1, isSome_lookupA_insertA _ _ _ _ (hfresh p hp').2⟩
            · intro k hk
              exact isSome_lookupA_insertA _ _ _ _ (hmono k hk)
            · intro p hp
              rcases List.mem_cons.mp hp with rfl | hp'
              · exact Or.inr rfl
              · rcases hshape p hp' with hl | h'
                · exact Or.inl hl
                · cases h'
    | caps cache proc cs acc =>
      cases cs with
      | nil =>
        simp only [run] at h
        rcases Option.some.inj h with rfl
        refine ⟨by simp, by simp, ?_, by simp⟩
        intro k hk
        exact hk
      | cons cap rest =>
        by_cases hin : componentPathOf cfg cap.name ∈ proc
        · cases hg : run cfg fs f (.caps cache proc rest acc) with
          | none =>
            simp only [run, if_pos hin, hg] at h
            exact Option.noConfusion h
          | some g =>
            simp only [run, if_pos hin, hg] at h
            rcases Option.some.inj h with rfl
            have hrg := ih cfg fs _ g hg
            simp only at hrg
            exact ⟨hrg.1, hrg.2.1, hrg.2.2.1, hrg.2.2.2⟩
        · cases ho1 : run cfg fs f (.resolve cache (componentPathOf cfg cap.name :: proc) (componentPathOf cfg cap.name)) with
          | none =>
            simp only [run, if_neg hin, ho1] at h
            exact Option.noConfusion h
          | some o1 =>
            cases ho2 : run cfg fs f (.caps o1.cache proc rest (replaceAllL acc cap.matched o1.text)) with
            | none =>
              simp only [run, if_neg hin, ho1, ho2] at h
              exact Option.noConfusion h
            | some o2 =>
              simp only [run, if_neg hin, ho1, ho2] at h
              rcases Option.some.inj h with rfl
              have h1 := ih cfg fs _ o1 ho1
              simp only at h1
              have h1 := h1 (fun _ => List.mem_cons_self _ _)
              have h2 := ih cfg fs _ o2 ho2
              simp only at h2
              obtain ⟨h1nd, h1fresh, h1mono, h1shape⟩ := h1
              obtain ⟨h2nd, h2fresh, h2mono, h2shape⟩ := h2
              refine ⟨?_, ?_, ?_, ?_⟩
              · refine List.Nodup.append h1nd h2nd ?_
                intro p hp1 hp2
                have hs := (h1fresh p hp1).2
                have hn := (h2fresh p hp2).1
                rw [hn] at hs
                exact absurd hs (by simp)
              · intro p hp
                rcases List.mem_append.mp hp with hp1 | hp2
                · exact ⟨(h1fresh p hp1).1, h2mono _ (h1fresh p hp1).2⟩
                · refine ⟨?_, (h2fresh p hp2).2⟩
                  cases hc : lookupA cache (destJoin cfg p) with
                  | none => rfl
                  | some v =>
                    have hx := h1mono (destJoin cfg p) (by simp [hc])
                    rw [(h2fresh p hp2).1] at hx
                    exact absurd hx (by simp)
              · intro k hk
                exact h2mono k (h1mono k hk)
              · intro p hp
                rcases List.mem_append.mp hp with hp1 | hp2
                · rcases h1shape p hp1 with ⟨hc, hnp⟩ | h'
                  · exact Or.inl ⟨hc, fun hm => hnp (List.mem_cons_of_mem _ hm)⟩
                  · rcases Option.some.inj h' with rfl
                    exact Or.inl ⟨isCompPath_componentPathOf cfg cap.name, hin⟩
                · rcases h2shape p hp2 with hl | h'
                  · exact Or.inl hl
                  · cases h'


theorem run_resolve_post (cfg : Config) (fs : FS) (fuel : Nat) (cache : Cache) (proc : List L)
    (path : L) (o : RcOut) (h : run cfg fs fuel (.resolve cache proc path) = some o) :
    lookupA o.cache (destJoin cfg path) = some o.text
    ∨ (o.cache = cache ∧ o.text = [] ∧ lookupA cache (destJoin cfg path) = none
       ∧ lookupA fs (srcJoin cfg path) = none) := by
  cases fuel with
  | zero => simp [run] at h
  | succ f =>
    cases h1 : lookupA cache (destJoin cfg path) with
    | some v =>
      simp only [run, h1] at h
      rcases Option.some.inj h with rfl
      exact Or.inl h1
    | none =>
      cases h2 : lookupA fs (srcJoin cfg path) with
      | none =>
        simp only [run, h1, h2] at h
        rcases Option.some.inj h with rfl
        exact Or.inr ⟨rfl, rfl, rfl, rfl⟩
      | some text =>
        cases hg : run cfg fs f (.caps cache proc (scanTags componentTag text) text) with
        | none =>
          simp only [run, h1, h2, hg] at h
          exact Option.noConfusion h
        | some g =>
          simp only [run, h1, h2, hg] at h
          rcases Option.some.inj h with rfl
          exact Or.inl (lookupA_insertA_self _ _ _)

theorem run_resolve_stable (cfg : Config) (fs : FS) (fuel f2 : Nat) (cache : Cache)
    (proc proc2 : List L) (path : L) (o : RcOut)
    (h : run cfg fs fuel (.resolve cache proc path) = some o) :
    ∃ ds, run cfg fs (f2 + 1) (.resolve o.cache proc2 path) = some ⟨o.cache, o.text, ds, []⟩ := by
  rcases run_resolve_post cfg fs fuel cache proc path o h with hhit | ⟨hc, ht, hmiss, hfs⟩
  · refine ⟨[], ?_⟩
    simp only [run, hhit]
  · refine ⟨[Diag.readFail (srcJoin cfg path)], ?_⟩
    rw [hc, ht]
    simp only [run, hmiss, hfs]


theorem tryContentAt_rest_le {s m r : L} (h : tryContentAt s = some (m, r)) :
    r.length ≤ s.length - 11 := by
  simp only [tryContentAt] at h
  by_cases h1 : lstartsWith (str "<el-content") s = true
  · rw [if_pos h1] at h
    by_cases h2 : lstartsWith (str "/>") ((List.drop 11 s).dropWhile isWs) = true
    · rw [if_pos h2] at h
      rcases Option.some.inj h with h3
      obtain ⟨hA, hB⟩ := Prod.mk.injEq _ _ _ _ ▸ h3
      have hlen2 : ((List.drop 11 s).dropWhile isWs).length ≤ (List.drop 11 s).length :=
        (List.dropWhile_sublist isWs).length_le
      have hlen3 : (List.drop 11 s).length = s.length - 11 := List.length_drop 11 s
      have hlen4 : (List.drop 2 ((List.drop 11 s).dropWhile isWs)).length
          = ((List.drop 11 s).dropWhile isWs).length - 2 := List.length_drop 2 _
      rw [← hB, hlen4]
      omega
    · rw [if_neg h2] at h
      exact Option.noConfusion h
  · rw [if_neg h1] at h
    exact Option.noConfusion h

theorem substAllF_eq_substAll (body : L) (f : Nat) (s : L) (hs : s.length ≤ f) :
    substAllF body f s = substAll body s := by
  cases f with
  | zero =>
    rw [List.eq_nil_of_length_eq_zero (Nat.le_zero.mp hs)]
    rfl
  | succ f =>
    cases s with
    | nil => rfl
    | cons c rest =>
      simp only [List.length_cons] at hs
      have hrw : substAll body (c :: rest) = substAllF body (rest.length + 1) (c :: rest) := by
        rw [substAll, List.length_cons]
      rw [hrw]
      cases hm : tryContentAt (c :: rest) with
      | none =>
        simp only [substAllF, hm]
        rw [substAllF_eq_substAll body f rest (by omega)]
        rw [substAllF_eq_substAll body rest.length rest (by omega)]
      | some pr =>
        match pr with
        | (m, r) =>
          have hr := tryContentAt_rest_le hm
          simp only [List.length_cons] at hr
          simp only [substAllF, hm]
          rw [substAllF_eq_substAll body f r (by omega)]
          rw [substAllF_eq_substAll body rest.length r (by omega)]
termination_by f

theorem tryContentAt_not_lt (c : Char) (rest : L) (h : ¬ c = '<') :
    tryContentAt (c :: rest) = none := by
  have hb : ('<' == c) = false := beq_eq_false_iff_ne.mpr (fun he => h he.symm)
  have hfalse : lstartsWith (str "<el-content") (c :: rest) = false := by
    show lstartsWith ('<' :: str "el-content") (c :: rest) = false
    simp [lstartsWith, hb]
  simp [tryContentAt, hfalse]

theorem tryContentAt_ph (t : L) :
    tryContentAt ('<' :: (str "el-content/>" ++ t)) = some (phTag, t) := by
  have h1 : ('<' :: (str "el-content/>" ++ t)) = (str "<el-content") ++ (str "/>" ++ t) := by
    simp [str]
  simp only [tryContentAt]
  rw [if_pos (by rw [h1]; exact lstartsWith_append _ _)]
  rw [show (11 = (str "<el-content").length) from rfl, h1, List.drop_left]
  have h2 : (str "/>" ++ t : L) = '/' :: ('>' :: t) := by simp [str]
  rw [h2]
  have h3 : List.dropWhile isWs ('/' :: ('>' :: t)) = '/' :: ('>' :: t) := by
    rw [List.dropWhile_cons_of_neg]
    simp [isWs]
  rw [h3]
  rw [if_pos (by rw [show ('/' :: ('>' :: t)) = (str "/>") ++ t from by simp [str]]; exact lstartsWith_append _ _)]
  have h4 : List.drop 2 ('/' :: ('>' :: t)) = t := rfl
  rw [h4]
  congr 1
  have hx : (str "<el-content" ++ '/' :: '>' :: t : L) = phTag ++ t := by simp [phTag, str]
  rw [hx]
  have hlen : (phTag ++ t).length - t.length = phTag.length := by
    simp [List.length_append]
  rw [hlen, List.take_left]


theorem substAll_ph (body t : L) :
    substAll body (phTag ++ t) = expandRepl phTag body ++ substAll body t := by
  have hsh : (phTag ++ t : L) = '<' :: (str "el-content/>" ++ t) := by simp [phTag, str]
  have hlen : (phTag ++ t).length = (str "el-content/>" ++ t).length + 1 := by
    rw [hsh]
    simp
  rw [substAll, hlen, hsh]
  simp only [substAllF, tryContentAt_ph]
  congr 1
  apply substAllF_eq_substAll
  simp [str]
  omega

theorem substAll_skip (body a t : L) (h : ∀ c ∈ a, ¬ c = '<') :
    substAll body (a ++ t) = a ++ substAll body t := by
  induction a with
  | nil => simp
  | cons c a' ih =>
    have hc : ¬ c = '<' := h c (List.mem_cons_self _ _)
    have hrest : ∀ x ∈ a', ¬ x = '<' := fun x hx => h x (List.mem_cons_of_mem _ hx)
    have hsh : ((c :: a') ++ t : L) = c :: (a' ++ t) := rfl
    rw [hsh, substAll]
    simp only [List.length_cons]
    simp only [substAllF, tryContentAt_not_lt c (a' ++ t) hc]
    rw [substAllF_eq_substAll body (a' ++ t).length (a' ++ t) (Nat.le_refl _)]
    rw [ih hrest]
    simp

theorem substAll_nil (body : L) : substAll body [] = [] := rfl

theorem substAll_closed (body c : L) (h : ∀ x ∈ c, ¬ x = '<') : substAll body c = c := by
  have := substAll_skip body c [] h
  simpa [show substAll body [] = [] from rfl] using this

theorem expandReplF_no_dollar (m : L) : ∀ (f : Nat) (repl : L), repl.length ≤ f →
    (∀ c ∈ repl, ¬ c = '$') → expandReplF m f repl = repl := by
  intro f
  induction f with
  | zero =>
    intro repl hlen _
    rw [List.eq_nil_of_length_eq_zero (Nat.le_zero.mp hlen)]
    rfl
  | succ f ih =>
    intro repl hlen hnd
    cases repl with
    | nil => rfl
    | cons c rest =>
      have hc : (c == '$') = false :=
        beq_eq_false_iff_ne.mpr (hnd c (List.mem_cons_self _ _))
      simp only [List.length_cons] at hlen
      simp only [expandReplF, hc]
      simp only [Bool.false_eq_true, if_false]
      rw [ih rest (by omega) (fun x hx => hnd x (List.mem_cons_of_mem _ hx))]

theorem expandRepl_no_dollar (m repl : L) (h : ∀ c ∈ repl, ¬ c = '$') :
    expandRepl m repl = repl :=
  expandReplF_no_dollar m repl.length repl (Nat.le_refl _) h


/-- C1 counterexample: in the claim's exact scenario (component at
`components/greeting.html`, page referencing it with a `src` attribute)
component resolution leaves the page unchanged — the reference-tag
regex only recognises a `name` attribute — so the output is the literal
tag text, not `Hello, World!`. -/
theorem c1_counterexample :
    (replaceComponents defaultCfg fsC1 [] (str "index.html")).text
      = str "<el-component src=\"greeting\"></el-component>"
    ∧ (str "<el-component src=\"greeting\"></el-component>" : L) ≠ str "Hello, World!" :=
  ⟨by decide, by decide⟩

/-- C1 (amended): with the reference tag written with a `name` attribute
and the component at `el-components/greeting.html`, resolving the page
yields exactly `Hello, World!`. -/
theorem c1_resolution :
    (replaceComponents defaultCfg fsC1amended [] (str "index.html")).text = str "Hello, World!" := by
  decide

/-- C2 counterexample: on the acyclic filesystem `fsC2` (the page
references only `a`, and `a` references nothing — its text has no regex
match) the resolved output is a literal component-reference tag formed
by textual splicing, so literal reference-tag text can remain for an
acyclic reference graph. -/
theorem c2_counterexample :
    (replaceComponents defaultCfg fsC2 [] (str "index.html")).text
      = str "<el-component name=\"b\"></el-component>"
    ∧ scanTags componentTag (str "<el-component name=\"b\"></el-component>") ≠ []
    ∧ scanTags componentTag (str "<el-component name=\"b\">") = [] :=
  ⟨by decide, by decide, by decide⟩

/-- C2 (amended): component resolution terminates for every input —
`needFuel` bounds the recursion depth, so the guarded recursion always
completes, also on cyclic graphs — and each matched reference whose
path is not guarded is substituted (textually, every occurrence of its
matched span) by the referenced file's resolved content. -/
theorem c2_termination (cfg : Config) (fs : FS) :
    (∀ cache proc path fuel, needFuel cfg fs proc ≤ fuel →
      (run cfg fs fuel (.resolve cache proc path)).isSome = true)
    ∧ (∀ fuel cache proc (cap : Cap) rest acc, componentPathOf cfg cap.name ∉ proc →
      run cfg fs (fuel + 1) (.caps cache proc (cap :: rest) acc) =
        (match run cfg fs fuel
            (.resolve cache (componentPathOf cfg cap.name :: proc) (componentPathOf cfg cap.name)) with
         | none => none
         | some o1 =>
           match run cfg fs fuel (.caps o1.cache proc rest (replaceAllL acc cap.matched o1.text)) with
           | none => none
           | some o2 => some ⟨o2.cache, o2.text, o1.diags ++ o2.diags, o1.reads ++ o2.reads⟩)) := by
  constructor
  · intro cache proc path fuel h
    exact (run_term cfg fs fuel).1 cache proc path h
  · intro fuel cache proc cap rest acc hin
    simp only [run, if_neg hin]

/-- Witness for C2: the termination bound holds concretely on `fsC2`. -/
theorem c2_termination_witness :
    needFuel defaultCfg fsC2 [] ≤ 10
    ∧ (run defaultCfg fsC2 10 (.resolve [] [] (str "index.html"))).isSome = true :=
  ⟨by decide, (c2_termination defaultCfg fsC2).1 [] [] (str "index.html") 10 (by decide)⟩

/-- C3: when a capture's referenced component path is already in the
recursion guard, the capture loop reports a cycle diagnostic naming
that path, leaves the accumulated result unchanged for that occurrence,
and continues with the remaining captures; the diagnostic is present in
the final diagnostics of the loop. -/
theorem c3_cycle_guard (cfg : Config) (fs : FS) (fuel : Nat) (cache : Cache) (proc : List L)
    (cap : Cap) (rest : List Cap) (acc : L)
    (h : componentPathOf cfg cap.name ∈ proc) :
    run cfg fs (fuel + 1) (.caps cache proc (cap :: rest) acc) =
      (match run cfg fs fuel (.caps cache proc rest acc) with
       | none => none
       | some o => some ⟨o.cache, o.text, Diag.cycle (componentPathOf cfg cap.name) :: o.diags, o.reads⟩)
    ∧ (∀ o, run cfg fs (fuel + 1) (.caps cache proc (cap :: rest) acc) = some o →
        Diag.cycle (componentPathOf cfg cap.name) ∈ o.diags) := by
  have heq : run cfg fs (fuel + 1) (.caps cache proc (cap :: rest) acc) =
      (match run cfg fs fuel (.caps cache proc rest acc) with
       | none => none
       | some o => some ⟨o.cache, o.text, Diag.cycle (componentPathOf cfg cap.name) :: o.diags, o.reads⟩) := by
    simp only [run, if_pos h]
  refine ⟨heq, ?_⟩
  intro o ho
  rw [heq] at ho
  cases hg : run cfg fs fuel (.caps cache proc rest acc) with
  | none =>
    rw [hg] at ho
    exact Option.noConfusion ho
  | some g =>
    rw [hg] at ho
    rcases Option.some.inj ho with rfl
    exact List.mem_cons_self _ _

/-- Witness for C3: a direct self-reference of component `a`, with
`el-components/a.html` in the guard, reports the cycle and leaves the
accumulator unsubstituted. -/
theorem c3_cycle_guard_witness :
    componentPathOf defaultCfg (str "a") ∈ [str "el-components/a.html"]
    ∧ run defaultCfg [] 2 (.caps [] [str "el-components/a.html"]
        [⟨str "<el-component name=\"a\">f</el-component>", str "a", str "f"⟩] (str "X"))
      = some ⟨[], str "X", [Diag.cycle (str "el-components/a.html")], []⟩ := by
  refine ⟨by decide, ?_⟩
  rw [(c3_cycle_guard defaultCfg [] 1 [] [str "el-components/a.html"]
      ⟨str "<el-component name=\"a\">f</el-component>", str "a", str "f"⟩ [] (str "X")
      (by decide)).1]
  decide


/-- C4 counterexample: a page whose captured body is `a$1b` produces
`<h1>T</h1>a` — the body is spliced through regex replacement-string
expansion, not verbatim — so the output is not the layout text with the
placeholder replaced by the captured inner content. -/
theorem c4_counterexample :
    (replaceLayout defaultCfg fsC4 [] (str "<el-layout name=\"base\">a$1b</el-layout>")).text
      = str "<h1>T</h1>a"
    ∧ (str "<h1>T</h1>a" : L) ≠ str "<h1>T</h1>a$1b" :=
  ⟨by decide, by decide⟩

/-- C4 (amended): applying the layout to content with no layout
reference returns the content unchanged; with a first layout-reference
match, the output is the component-resolved layout file with every
placeholder occurrence replaced by the captured body interpreted as a
regex replacement string. -/
theorem c4_layout_contract (cfg : Config) (fs : FS) (cache : Cache) (content : L) :
    (findFirstTag layoutTag content = none →
      replaceLayout cfg fs cache content = ⟨cache, content, [], []⟩)
    ∧ (∀ cap, findFirstTag layoutTag content = some cap →
      (replaceLayout cfg fs cache content).text
        = substAll cap.inner
            ((run cfg fs (defaultFuel fs)
              (.resolve cache [] (layoutPathOf cfg cap.name))).getD (emptyOut cache)).text) := by
  constructor
  · intro h
    simp [replaceLayout, h]
  · intro cap h
    simp [replaceLayout, h]

/-- Witness for C4: a plain page passes through unchanged, and the
spec's own scenario (`base` layout, body `Body text`) produces
`<h1>Site</h1>Body text`. -/
theorem c4_layout_contract_witness :
    replaceLayout defaultCfg [] [] (str "plain") = ⟨[], str "plain", [], []⟩
    ∧ (replaceLayout defaultCfg fsBase [] (str "<el-layout name=\"base\">Body text</el-layout>")).text
      = str "<h1>Site</h1>Body text" := by
  constructor
  · exact (c4_layout_contract defaultCfg [] [] (str "plain")).1 (by decide)
  · rw [(c4_layout_contract defaultCfg fsBase []
      (str "<el-layout name=\"base\">Body text</el-layout>")).2
      ⟨str "<el-layout name=\"base\">Body text</el-layout>", str "base", str "Body text"⟩
      (by decide)]
    decide

/-- C5 counterexample: with a layout holding two placeholders and body
`X`, the code produces `AXBXC` — both occurrences replaced — while the
claimed first-occurrence-only substitution (`substFirst`, modelled from
the spec) would produce `AXB<el-content/>C`. -/
theorem c5_counterexample :
    (replaceLayout defaultCfg fsC5 [] (str "<el-layout name=\"two\">X</el-layout>")).text
      = str "AXBXC"
    ∧ substFirst (str "X") (str "A<el-content/>B<el-content/>C") = str "AXB<el-content/>C"
    ∧ (str "AXBXC" : L) ≠ str "AXB<el-content/>C" :=
  ⟨by decide, by decide, by decide⟩

/-- C5 (amended): placeholder substitution replaces EVERY placeholder
occurrence in the resolved layout text with the expanded body (shown
here for two occurrences separated by placeholder-free text), and the
body the layout step receives is the page content already expanded by
component resolution. -/
theorem c5_subst_all_occurrences :
    (∀ (body a b c : L), (∀ x ∈ a, ¬ x = '<') → (∀ x ∈ b, ¬ x = '<') → (∀ x ∈ c, ¬ x = '<') →
      substAll body (a ++ phTag ++ b ++ phTag ++ c)
        = a ++ expandRepl phTag body ++ b ++ expandRepl phTag body ++ c)
    ∧ (∀ cfg fs cache path, (flattenFile cfg fs cache path).text
        = (replaceLayout cfg fs (replaceComponents cfg fs cache path).cache
            (replaceComponents cfg fs cache path).text).text) := by
  constructor
  · intro body a b c ha hb hc
    rw [show (a ++ phTag ++ b ++ phTag ++ c : L)
        = a ++ (phTag ++ (b ++ (phTag ++ c))) from by simp [List.append_assoc]]
    rw [substAll_skip body a _ ha, substAll_ph, substAll_skip body b _ hb, substAll_ph,
      substAll_closed body c hc]
    simp [List.append_assoc]
  · intro cfg fs cache path
    rfl

/-- Witness for C5: both placeholders of `A<el-content/>B<el-content/>C`
receive the body `X`. -/
theorem c5_subst_all_occurrences_witness :
    substAll (str "X") (str "A" ++ phTag ++ str "B" ++ phTag ++ str "C")
      = str "A" ++ expandRepl phTag (str "X") ++ str "B" ++ expandRepl phTag (str "X") ++ str "C" :=
  c5_subst_all_occurrences.1 (str "X") (str "A") (str "B") (str "C")
    (by decide) (by decide) (by decide)


/-- C6: a failing read (cache miss and missing source file) reports a
read-failure diagnostic naming the source path and yields the empty
string without caching; in the capture loop the caller substitutes the
empty string for every occurrence of the matched span and continues
with the remaining captures. -/
theorem c6_read_failure (cfg : Config) (fs : FS) (f : Nat) (cache : Cache) (proc : List L)
    (path : L) (cap : Cap) (rest : List Cap) (acc : L) :
    (lookupA cache (destJoin cfg path) = none → lookupA fs (srcJoin cfg path) = none →
      run cfg fs (f + 1) (.resolve cache proc path)
        = some ⟨cache, [], [Diag.readFail (srcJoin cfg path)], []⟩)
    ∧ (componentPathOf cfg cap.name ∉ proc →
      lookupA cache (destJoin cfg (componentPathOf cfg cap.name)) = none →
      lookupA fs (srcJoin cfg (componentPathOf cfg cap.name)) = none →
      run cfg fs (f + 1 + 1) (.caps cache proc (cap :: rest) acc)
        = (match run cfg fs (f + 1) (.caps cache proc rest (replaceAllL acc cap.matched [])) with
           | none => none
           | some o => some ⟨o.cache, o.text,
               Diag.readFail (srcJoin cfg (componentPathOf cfg cap.name)) :: o.diags, o.reads⟩)) := by
  constructor
  · intro h1 h2
    simp only [run, h1, h2]
  · intro hin h1 h2
    cases hg : run cfg fs (f + 1) (.caps cache proc rest (replaceAllL acc cap.matched [])) with
    | none => simp only [run, if_neg hin, h1, h2, hg]
    | some o => simp only [run, if_neg hin, h1, h2, hg, List.nil_append, List.singleton_append]

/-- Witness for C6: resolving a missing file on an empty filesystem
reports the read failure and returns the empty string. -/
theorem c6_read_failure_witness :
    run defaultCfg [] 1 (.resolve [] [] (str "missing.html"))
      = some ⟨[], [], [Diag.readFail (srcJoin defaultCfg (str "missing.html"))], []⟩ :=
  (c6_read_failure defaultCfg [] 0 [] [] (str "missing.html") ⟨[], [], []⟩ [] []).1
    (by decide) (by decide)

/-- C7: for a resolver call whose path satisfies the pipeline guard
(component paths are already in the processing set), the successfully
read paths are pairwise distinct, each was uncached before the call and
is cached afterwards, and a repeated resolution of the same path from
the resulting cache re-reads nothing (its read trace is empty) and
returns byte-identical content with an unchanged cache. -/
theorem c7_reads_once (cfg : Config) (fs : FS) (fuel : Nat) (cache : Cache) (proc : List L)
    (path : L) (o : RcOut)
    (h : run cfg fs fuel (.resolve cache proc path) = some o)
    (hguard : isCompPath cfg path → path ∈ proc) :
    o.reads.Nodup
    ∧ (∀ p ∈ o.reads, lookupA cache (destJoin cfg p) = none
        ∧ (lookupA o.cache (destJoin cfg p)).isSome = true)
    ∧ (∀ f2 proc2, ∃ ds, run cfg fs (f2 + 1) (.resolve o.cache proc2 path)
        = some ⟨o.cache, o.text, ds, []⟩) := by
  have hro := run_readsOk fuel cfg fs _ o h
  simp only at hro
  have hro := hro hguard
  refine ⟨hro.1, hro.2.1, ?_⟩
  intro f2 proc2
  exact run_resolve_stable cfg fs fuel f2 cache proc proc2 path o h

/-- Witness for C7: the diamond inclusion of `fsC7` (page references
`c1` and `c2`, both referencing `s`) reads each file once. -/
theorem c7_reads_once_witness :
    ∃ o, run defaultCfg fsC7 20 (.resolve [] [] (str "index.html")) = some o ∧ o.reads.Nodup := by
  refine ⟨_, rfl, ?_⟩
  refine (c7_reads_once defaultCfg fsC7 20 [] [] (str "index.html") _ rfl ?_).1
  intro hc
  simp only [isCompPath] at hc
  exact absurd hc (by decide)


/-- C8 counterexample: with removal of the output directory failing
(`removeOk = false`), the build still processes and writes the page —
it reports the removal failure and continues, instead of aborting. -/
theorem c8_counterexample :
    (build defaultCfg fsC1amended false [Entry.page (str "index.html")]).1
      = [(destJoin defaultCfg (str "index.html"), str "Hello, World!")]
    ∧ Diag.removeFail ∈ (build defaultCfg fsC1amended false [Entry.page (str "index.html")]).2 :=
  ⟨by decide, by decide⟩

/-- C8 (amended): no error is fatal — a failure to remove the output
directory only adds a diagnostic and the written outputs are exactly
those of a run whose removal succeeded. -/
theorem c8_no_fatal_removal (cfg : Config) (fs : FS) (entries : List Entry) :
    (build cfg fs false entries).1 = (build cfg fs true entries).1
    ∧ (build cfg fs false entries).2 = Diag.removeFail :: (build cfg fs true entries).2 := by
  constructor
  · rfl
  · simp [build]

/-- C9: a cache entry is never recomputed — a resolve call on a cached
destination path returns the cached text and changes nothing — and in
the concrete run over `fsC9` the self-referential component `a` is
cached (under its destination path) with its reference tag left as
literal text, so the later page `p2` receives that tag-containing text
from the cache. -/
theorem c9_cache_poisoning :
    (∀ (cfg : Config) (fs : FS) (f : Nat) (cache : Cache) (proc : List L) (path : L) (v : L),
      lookupA cache (destJoin cfg path) = some v →
      run cfg fs (f + 1) (.resolve cache proc path) = some ⟨cache, v, [], []⟩)
    ∧ lookupA (flattenFile defaultCfg fsC9 [] (str "p1.html")).cache
        (destJoin defaultCfg (str "el-components/a.html"))
      = some (str "X<el-component name=\"a\">f</el-component>Y")
    ∧ (flattenFile defaultCfg fsC9 (flattenFile defaultCfg fsC9 [] (str "p1.html")).cache
        (str "p2.html")).text
      = str "AX<el-component name=\"a\">f</el-component>YB"
    ∧ scanTags componentTag (str "AX<el-component name=\"a\">f</el-component>YB") ≠ [] := by
  refine ⟨?_, by decide, by decide, by decide⟩
  intro cfg fs f cache proc path v h
  simp only [run, h]

/-- Witness for C9: a cache hit returns the cached content unchanged. -/
theorem c9_cache_poisoning_witness :
    run defaultCfg [] 1 (.resolve [(destJoin defaultCfg (str "x.html"), str "V")] [] (str "x.html"))
      = some ⟨[(destJoin defaultCfg (str "x.html"), str "V")], str "V", [], []⟩ :=
  c9_cache_poisoning.1 defaultCfg [] 0 _ [] _ _ (by decide)

/-- C10: the page body is passed to placeholder substitution as a regex
replacement string: a body with no dollar sign is spliced verbatim,
while `$1` and `$name` are capture-group references of the
placeholder regex (which has no such groups) and expand to the empty
string; in the full layout step a body `a$1-b` yields `a-b`. -/
theorem c10_replacement_expansion :
    (∀ m repl, (∀ c ∈ repl, ¬ c = '$') → expandRepl m repl = repl)
    ∧ expandRepl phTag (str "$1") = []
    ∧ expandRepl phTag (str "$name") = []
    ∧ (replaceLayout defaultCfg fsC10 [] (str "<el-layout name=\"b\">a$1-b</el-layout>")).text
      = str "<p>a-b</p>" :=
  ⟨fun m repl h => expandRepl_no_dollar m repl h, by decide, by decide, by decide⟩

/-- Witness for C10: a dollar-free body is spliced verbatim. -/
theorem c10_replacement_expansion_witness :
    expandRepl phTag (str "Body text") = str "Body text" :=
  c10_replacement_expansion.1 phTag (str "Body text") (by decide)

end Elss
